import Mathlib

/-!
Verification of the fast-graph library (arena-backed graph with DFS and
connected components).  The Rust sources are shallowly embedded: the two
slotmap arenas become association lists keyed by natural numbers (slotmap
keys are generation-checked and never reused, so a monotone counter is a
faithful model of key identity), `&mut self` methods become state-passing
functions, and fallible operations return `Except GraphError`.
-/

namespace FastGraph

/-- Key into the node arena (slotmap key, modelled as a never-reused Nat). -/
abbrev NodeID := Nat

/-- Key into the edge arena (slotmap key, modelled as a never-reused Nat). -/
abbrev EdgeID := Nat

/-- The error enum of lib.rs. -/
inductive GraphError where
  | EdgeNotFound
  | NodeNotFound
deriving DecidableEq, Repr

/-- Node of node.rs: id, data and the adjacency list of edge ids. -/
structure Node (N : Type) where
  id : NodeID
  data : N
  connections : List EdgeID
deriving DecidableEq, Repr

/-- Edge of edge.rs: id, the two endpoints and data.  The Rust fields
`from` and `to` clash with Lean/Mathlib tokens, hence the quoted names. -/
structure Edge (E : Type) where
  id : EdgeID
  «from» : NodeID
  «to» : NodeID
  data : E
deriving DecidableEq, Repr

/-- Node::new. -/
def Node.new {N : Type} (id : NodeID) (data : N) : Node N :=
  ⟨id, data, []⟩

/-- Node::add_connection: pushes an edge id at the end of `connections`. -/
def Node.add_connection {N : Type} (n : Node N) (edge : EdgeID) : Node N :=
  { n with connections := n.connections ++ [edge] }

/-- Edge::new. -/
def Edge.new {E : Type} (id : EdgeID) (f t : NodeID) (data : E) : Edge E :=
  ⟨id, f, t, data⟩

/-- SlotMap::get on the association-list model of an arena. -/
def lookupL {α : Type} : List (Nat × α) → Nat → Option α
  | [], _ => none
  | (k, v) :: rest, key => if k = key then some v else lookupL rest key

/-- SlotMap::remove (the slot with the given key disappears). -/
def eraseL {α : Type} : List (Nat × α) → Nat → List (Nat × α)
  | [], _ => []
  | p :: rest, key => if p.1 = key then eraseL rest key else p :: eraseL rest key

/-- SlotMap::get_mut followed by an update of the stored value. -/
def modifyL {α : Type} : List (Nat × α) → Nat → (α → α) → List (Nat × α)
  | [], _, _ => []
  | p :: rest, key, f =>
    (if p.1 = key then (p.1, f p.2) else p) :: modifyL rest key f

/-- The Graph struct of lib.rs: one arena for nodes, one for edges.
The two counters model slotmap's supply of fresh keys. -/
structure Graph (N E : Type) where
  nodes : List (NodeID × Node N)
  edges : List (EdgeID × Edge E)
  nextNodeId : NodeID
  nextEdgeId : EdgeID

namespace Graph

variable {N E : Type}

/-- Graph::new. -/
def new : Graph N E :=
  ⟨[], [], 0, 0⟩

/-- GraphInterface::nodes (the key iterator, in arena order). -/
def nodesList (g : Graph N E) : List NodeID :=
  g.nodes.map Prod.fst

/-- GraphInterface::node_count. -/
def node_count (g : Graph N E) : Nat :=
  g.nodes.length

/-- GraphInterface::node: `self.nodes.get(id).ok_or(GraphError::NodeNotFound)`. -/
def node (g : Graph N E) (id : NodeID) : Except GraphError (Node N) :=
  match lookupL g.nodes id with
  | some n => .ok n
  | none => .error .NodeNotFound

/-- GraphInterface::edge: `self.edges.get(id).ok_or(GraphError::EdgeNotFound)`. -/
def edge (g : Graph N E) (id : EdgeID) : Except GraphError (Edge E) :=
  match lookupL g.edges id with
  | some e => .ok e
  | none => .error .EdgeNotFound

/-- GraphInterface::add_node: insert_with_key so the node stores its own id. -/
def add_node (g : Graph N E) (data : N) : NodeID × Graph N E :=
  let id := g.nextNodeId
  (id, { g with
           nodes := g.nodes ++ [(id, Node.new id data)],
           nextNodeId := id + 1 })

/-- GraphInterface::add_edge: the edge record is always inserted; each
endpoint's adjacency list is updated only when that endpoint exists. -/
def add_edge (g : Graph N E) (f t : NodeID) (data : E) : EdgeID × Graph N E :=
  let id := g.nextEdgeId
  let g1 : Graph N E :=
    { g with
        edges := g.edges ++ [(id, Edge.new id f t data)],
        nextEdgeId := id + 1 }
  let g2 : Graph N E :=
    if (lookupL g1.nodes f).isSome then
      { g1 with nodes := modifyL g1.nodes f (fun n => n.add_connection id) }
    else g1
  let g3 : Graph N E :=
    if (lookupL g2.nodes t).isSome then
      { g2 with nodes := modifyL g2.nodes t (fun n => n.add_connection id) }
    else g2
  (id, g3)

/-- The loop body of Graph::remove_node: remove every edge listed in the
dead node's `connections`, failing with EdgeNotFound as soon as one of
them is no longer in the edge arena. -/
def removeEdgesList : Graph N E → List EdgeID → Except GraphError (Graph N E)
  | g, [] => .ok g
  | g, c :: cs =>
    match lookupL g.edges c with
    | none => .error .EdgeNotFound
    | some _ => removeEdgesList { g with edges := eraseL g.edges c } cs

/-- GraphInterface::remove_node for Graph: remove the node record, then
remove each edge in its connections, propagating EdgeNotFound. -/
def remove_node (g : Graph N E) (id : NodeID) : Except GraphError (Graph N E) :=
  match lookupL g.nodes id with
  | none => .error .NodeNotFound
  | some nd => removeEdgesList { g with nodes := eraseL g.nodes id } nd.connections

/-- GraphInterface::remove_edge for Graph: remove the edge record only. -/
def remove_edge (g : Graph N E) (id : EdgeID) : Except GraphError (Graph N E) :=
  match lookupL g.edges id with
  | none => .error .EdgeNotFound
  | some _ => .ok { g with edges := eraseL g.edges id }

/-- GraphInterface::add_nodes. -/
def add_nodes : Graph N E → List N → List NodeID × Graph N E
  | g, [] => ([], g)
  | g, d :: ds =>
    let (id, g1) := g.add_node d
    let (ids, g2) := add_nodes g1 ds
    (id :: ids, g2)

/-- GraphInterface::add_edges_with_data. -/
def add_edges_with_data : Graph N E → List (NodeID × NodeID × E) → List EdgeID × Graph N E
  | g, [] => ([], g)
  | g, (f, t, d) :: rest =>
    let (id, g1) := g.add_edge f t d
    let (ids, g2) := add_edges_with_data g1 rest
    (id :: ids, g2)

/-- GraphInterface::add_edges: default edge payload on every pair. -/
def add_edges [Inhabited E] (g : Graph N E) (data : List (NodeID × NodeID)) :
    List EdgeID × Graph N E :=
  add_edges_with_data g (data.map (fun p => (p.1, p.2, default)))

/-- The loop of GraphInterface::add_nodes_and_edges_with_data.  Mirrors the
Rust body exactly: `added_nodes` accumulates with push, while
`added_edges` is assigned (not extended) on every iteration. -/
def addNodesAndEdgesAux :
    Graph N E → List (N × List (NodeID × E)) → List NodeID → List EdgeID →
    (List NodeID × List EdgeID) × Graph N E
  | g, [], ns, es => ((ns, es), g)
  | g, (d, conns) :: rest, ns, _es =>
    let (nid, g1) := g.add_node d
    let (eids, g2) := add_edges_with_data g1 (conns.map (fun p => (nid, p.1, p.2)))
    addNodesAndEdgesAux g2 rest (ns ++ [nid]) eids

/-- GraphInterface::add_nodes_and_edges_with_data. -/
def add_nodes_and_edges_with_data (g : Graph N E)
    (node_data : List (N × List (NodeID × E))) :
    (List NodeID × List EdgeID) × Graph N E :=
  addNodesAndEdgesAux g node_data [] []

/-- GraphInterface::add_nodes_and_edges: default edge payload. -/
def add_nodes_and_edges [Inhabited E] (g : Graph N E)
    (data : List (N × List NodeID)) : (List NodeID × List EdgeID) × Graph N E :=
  add_nodes_and_edges_with_data g
    (data.map (fun p => (p.1, p.2.map (fun id => (id, default)))))

end Graph

/-! Depth-first traversal (algorithms/dfs.rs) and connected components. -/

/-- Outcome of running the DepthFirstSearch iterator to exhaustion.
`panicked` models a failing `.unwrap()` inside `next`; `outOfFuel` is an
artefact of the fuel-indexed embedding and is proved unreachable. -/
inductive DfsOut where
  | outOfFuel
  | panicked
  | finished (ys : List NodeID)
deriving DecidableEq, Repr

variable {N E : Type}

/-- The inner `for edge_id in connections.iter().rev()` loop of
DepthFirstSearch::next: resolve each edge (`none` models the panicking
unwrap on a stale edge id) and push `edge.to` when not yet visited.  The
caller passes the reversed connections list; the visited set is fixed
during the loop. -/
def pushTargets (g : Graph N E) :
    List EdgeID → Finset NodeID → List NodeID → Option (List NodeID)
  | [], _, stack => some stack
  | c :: cs, visited, stack =>
    match lookupL g.edges c with
    | none => none
    | some e =>
      pushTargets g cs visited (if e.«to» ∈ visited then stack else e.«to» :: stack)

/-- DepthFirstSearch::next, iterated to exhaustion.  Pop the stack; a
visited node is skipped (this is where the Rust code sets `cyclic`);
otherwise the node is marked visited, looked up (`none` models the
panicking unwrap), its connection targets are pushed in reverse order,
and the node is yielded.  One unit of fuel per loop iteration; `dfsFuel`
below always suffices. -/
def dfsAux (g : Graph N E) : Nat → List NodeID → Finset NodeID → DfsOut
  | 0, _, _ => .outOfFuel
  | _ + 1, [], _ => .finished []
  | fuel + 1, n :: stack, visited =>
    if n ∈ visited then
      dfsAux g fuel stack visited
    else
      match lookupL g.nodes n with
      | none => .panicked
      | some nd =>
        match pushTargets g nd.connections.reverse (insert n visited) stack with
        | none => .panicked
        | some stack2 =>
          match dfsAux g fuel stack2 (insert n visited) with
          | .finished ys => .finished (n :: ys)
          | r => r

/-- The set of live node keys. -/
def nodeKeys (g : Graph N E) : Finset NodeID :=
  (g.nodes.map Prod.fst).toFinset

/-- Upper bound on the length of any live node's connections list. -/
def maxConn (g : Graph N E) : Nat :=
  g.nodes.foldr (fun p m => max p.2.connections.length m) 0

/-- Fuel that suffices for any run of the DFS loop (proved below). -/
def dfsFuel (g : Graph N E) : Nat :=
  (g.nodes.length + 1) * (maxConn g + 1) + 2

/-- IterDepthFirst::iter_depth_first, run to exhaustion: stack seeded
with the start node, empty visited set. -/
def iter_depth_first (g : Graph N E) (start : NodeID) : DfsOut :=
  dfsAux g (dfsFuel g) [start] ∅

/-- The loop of connected_components: a fresh DFS per not-yet-visited key
(in arena key order); every yield of that DFS goes into the global
visited set and into the new component set.  `none` models a panic
inside the DFS iterator. -/
def ccAux (g : Graph N E) :
    List NodeID → Finset NodeID → List (Finset NodeID) → Option (List (Finset NodeID))
  | [], _, comps => some comps
  | k :: ks, visited, comps =>
    if k ∈ visited then ccAux g ks visited comps
    else
      match iter_depth_first g k with
      | .finished ys => ccAux g ks (visited ∪ ys.toFinset) (comps ++ [ys.toFinset])
      | _ => none

/-- IterDepthFirst::connected_components. -/
def connected_components (g : Graph N E) : Option (List (Finset NodeID)) :=
  ccAux g g.nodesList ∅ []

/-- The successor targets the DFS expansion follows from a node: for each
connection, in list order, the `to` endpoint of the resolved edge.
Unresolvable connections contribute nothing here (the iterator would
panic on them instead; see `ConnClosed`). -/
def succsD (g : Graph N E) (n : NodeID) : List NodeID :=
  match lookupL g.nodes n with
  | none => []
  | some nd => nd.connections.filterMap (fun c => (lookupL g.edges c).map (fun e => e.«to»))

/-- One DFS expansion step from a to b. -/
def Step (g : Graph N E) (a b : NodeID) : Prop :=
  b ∈ succsD g a

/-- Reachability along DFS expansion steps. -/
def Reach (g : Graph N E) (s t : NodeID) : Prop :=
  Relation.ReflTransGen (Step g) s t

/-- One connection is well formed: it resolves to a live edge whose `to`
endpoint is a live node. -/
def connOk (g : Graph N E) (c : EdgeID) : Bool :=
  match lookupL g.edges c with
  | some e => decide (e.«to» ∈ nodeKeys g)
  | none => false

/-- Graph invariant under which the DFS iterator cannot hit a failing
unwrap: every connection of every live node is well formed. -/
def ConnClosed (g : Graph N E) : Prop :=
  ∀ p ∈ g.nodes, ∀ c ∈ p.2.connections, connOk g c = true

/-- The reference recursive pre-order DFS that C6 compares the iterator
against, following the spec's words: visit a node, yield it, then visit
its children (`succsD`, the edge targets in the order their edges appear
in `connections`), skipping already-visited nodes; a worklist id that is
not a live node is skipped (unreachable under the closure invariant;
liveness is tested as `n ∈ nodeKeys g`, equivalent to a successful
lookup by `lookupL_isSome_iff_mem` below).  Presented as a worklist
recursion (the head of the worklist is the node being visited; children
are prepended), the standard continuation form of the nested recursion.
Returns the yield sequence together with the final visited set. -/
def recDfs (g : Graph N E) : List NodeID → Finset NodeID → List NodeID × Finset NodeID
  | [], v => ([], v)
  | n :: rest, v =>
    if hv : n ∈ v then recDfs g rest v
    else
      if hk : n ∈ nodeKeys g then
        let r := recDfs g (succsD g n ++ rest) (insert n v)
        (n :: r.1, r.2)
      else recDfs g rest v
termination_by l v => ((nodeKeys g \ v).card, l.length)
decreasing_by
· apply Prod.Lex.right
  simp
· apply Prod.Lex.left
  have hsub : nodeKeys g \ insert n v ⊆ nodeKeys g \ v :=
    Finset.sdiff_subset_sdiff (le_refl _) (Finset.subset_insert _ _)
  have hmem : n ∈ nodeKeys g \ v := Finset.mem_sdiff.mpr ⟨hk, hv⟩
  have hnot : n ∉ nodeKeys g \ insert n v := by simp
  exact Finset.card_lt_card ⟨hsub, fun hts => hnot (hts hmem)⟩
· apply Prod.Lex.right
  simp

/-! Concrete graphs used by counterexamples and witnesses. -/

/-- Extracts the graph from a successful fallible operation (names the
post-state of a concrete operation in counterexamples). -/
def getOkGraph : Except GraphError (Graph N E) → Graph N E
  | .ok g => g
  | .error _ => Graph.new

/-- Nodes 0 (data 10) and 1 (data 20), a single edge 0 → 1 with id 0. -/
def gAB : Graph Nat Unit :=
  (((Graph.new.add_node 10).2.add_node 20).2.add_edge 0 1 ()).2

/-- gAB after remove_node 1. -/
def gABr1 : Graph Nat Unit :=
  getOkGraph (Graph.remove_node gAB 1)

/-- gAB after remove_edge 0. -/
def gABe0 : Graph Nat Unit :=
  getOkGraph (Graph.remove_edge gAB 0)

/-- One node 0 with a self-loop edge 0 → 0 (id 0): the node's
connections list holds the id twice. -/
def gLoop : Graph Nat Unit :=
  ((Graph.new.add_node 10).2.add_edge 0 0 ()).2

/-- Nodes 0 and 1, a single edge 1 → 0 (id 0): the declared direction
runs against the arena key order. -/
def gBA : Graph Nat Unit :=
  (((Graph.new.add_node 10).2.add_node 20).2.add_edge 1 0 ()).2

/-- Nodes 0 and 1, edge 0 (0 → 99, a never-added endpoint) and
edge 1 (0 → 1). -/
def gDangling : Graph Nat Unit :=
  ((((Graph.new.add_node 10).2.add_node 20).2.add_edge 0 99 ()).2.add_edge 0 1 ()).2

/-- The arena counter invariant maintained by the interface: every live
edge key is below the next fresh key (slotmap never re-issues a live
key).  Hypothesis of the add_edge theorems, since the embedding's
records range over arbitrary states. -/
def edgeKeysBounded (g : Graph N E) : Prop :=
  ∀ p ∈ g.edges, p.1 < g.nextEdgeId

instance {g : Graph N E} : Decidable (edgeKeysBounded g) :=
  inferInstanceAs (Decidable (∀ p ∈ g.edges, p.1 < g.nextEdgeId))

instance {g : Graph N E} : Decidable (ConnClosed g) :=
  inferInstanceAs (Decidable (∀ p ∈ g.nodes, ∀ c ∈ p.2.connections, connOk g c = true))

instance {g : Graph N E} {a b : NodeID} : Decidable (Step g a b) :=
  inferInstanceAs (Decidable (b ∈ succsD g a))

/-! Basic lemmas about the association-list arena model. -/

theorem mem_map_fst_of_lookupL {α : Type} {l : List (Nat × α)} {k : Nat} {a : α}
    (h : lookupL l k = some a) : k ∈ l.map Prod.fst := by
  induction l with
  | nil => simp [lookupL] at h
  | cons p rest ih =>
    by_cases hk : p.1 = k
    · simp [hk]
    · simp only [lookupL] at h
      rw [if_neg hk] at h
      simp [ih h]

theorem lookupL_isSome_of_mem {α : Type} {l : List (Nat × α)} {k : Nat}
    (h : k ∈ l.map Prod.fst) : (lookupL l k).isSome = true := by
  induction l with
  | nil => simp at h
  | cons p rest ih =>
    by_cases hk : p.1 = k
    · simp [lookupL, hk]
    · simp only [lookupL, if_neg hk]
      refine ih ?_
      rcases List.mem_map.mp h with ⟨q, hq, hqk⟩
      rcases List.mem_cons.mp hq with hq1 | hq2
      · exact absurd (hq1 ▸ hqk) hk
      · exact List.mem_map.mpr ⟨q, hq2, hqk⟩

theorem lookupL_isSome_iff_mem {α : Type} (l : List (Nat × α)) (k : Nat) :
    (lookupL l k).isSome = true ↔ k ∈ l.map Prod.fst := by
  constructor
  · intro h
    cases hl : lookupL l k with
    | none => rw [hl] at h; simp at h
    | some a => exact mem_map_fst_of_lookupL hl
  · exact lookupL_isSome_of_mem

theorem mem_nodeKeys_of_lookupL {g : Graph N E} {k : NodeID} {nd : Node N}
    (h : lookupL g.nodes k = some nd) : k ∈ nodeKeys g := by
  simpa [nodeKeys] using mem_map_fst_of_lookupL h

theorem lookupL_nodes_isSome_of_mem_nodeKeys {g : Graph N E} {k : NodeID}
    (h : k ∈ nodeKeys g) : (lookupL g.nodes k).isSome = true := by
  refine lookupL_isSome_of_mem ?_
  simpa [nodeKeys] using h

theorem lookupL_eraseL {α : Type} (l : List (Nat × α)) (k x : Nat) :
    lookupL (eraseL l k) x = if x = k then none else lookupL l x := by
  induction l with
  | nil => simp [eraseL, lookupL]
  | cons p rest ih =>
    simp only [eraseL]
    by_cases hpk : p.1 = k
    · rw [if_pos hpk, ih]
      by_cases hxk : x = k
      · simp [hxk]
      · have hpx : ¬ p.1 = x := fun h => hxk ((h ▸ hpk : x = k))
        simp [hxk, lookupL, hpx]
    · rw [if_neg hpk]
      simp only [lookupL]
      by_cases hpx : p.1 = x
      · have hxk : ¬ x = k := fun h => hpk (hpx.trans h)
        simp [hpx, hxk]
      · simp [hpx, ih]

theorem lookupL_modifyL {α : Type} (l : List (Nat × α)) (k x : Nat) (f : α → α) :
    lookupL (modifyL l k f) x = if x = k then (lookupL l x).map f else lookupL l x := by
  induction l with
  | nil => simp [modifyL, lookupL]
  | cons p rest ih =>
    simp only [modifyL]
    by_cases hpk : p.1 = k
    · rw [if_pos hpk]
      by_cases hpx : p.1 = x
      · have hxk : x = k := hpx ▸ hpk
        simp [lookupL, hpx, hxk]
      · simp only [lookupL, if_neg hpx]
        exact ih
    · rw [if_neg hpk]
      by_cases hpx : p.1 = x
      · have hxk : ¬ x = k := fun h => hpk (hpx.trans h)
        simp [lookupL, hpx, hxk]
      · simp only [lookupL, if_neg hpx]
        exact ih

theorem lookupL_append_some {α : Type} {l1 : List (Nat × α)} (l2 : List (Nat × α))
    {x : Nat} {a : α} (h : lookupL l1 x = some a) :
    lookupL (l1 ++ l2) x = some a := by
  induction l1 with
  | nil => simp [lookupL] at h
  | cons p rest ih =>
    simp only [lookupL, List.cons_append] at *
    by_cases hpx : p.1 = x
    · simpa [hpx] using h
    · rw [if_neg hpx] at h ⊢
      exact ih h

theorem lookupL_append_none {α : Type} {l1 : List (Nat × α)} (l2 : List (Nat × α))
    {x : Nat} (h : lookupL l1 x = none) :
    lookupL (l1 ++ l2) x = lookupL l2 x := by
  induction l1 with
  | nil => simp
  | cons p rest ih =>
    simp only [lookupL, List.cons_append] at *
    by_cases hpx : p.1 = x
    · simp [hpx] at h
    · rw [if_neg hpx] at h ⊢
      exact ih h

theorem lookupL_eq_none_of_keys_lt {α : Type} {l : List (Nat × α)} {k : Nat}
    (h : ∀ p ∈ l, p.1 < k) : lookupL l k = none := by
  induction l with
  | nil => rfl
  | cons p rest ih =>
    have hp : p.1 ≠ k := Nat.ne_of_lt (h p (by simp))
    simp only [lookupL, if_neg hp]
    exact ih (fun q hq => h q (by simp [hq]))

/-! Lemmas about the edge-removal loop of remove_node. -/

theorem removeEdgesList_nodes_eq {g g' : Graph N E} {l : List EdgeID}
    (h : Graph.removeEdgesList g l = .ok g') : g'.nodes = g.nodes := by
  induction l generalizing g with
  | nil =>
    simp only [Graph.removeEdgesList] at h
    cases h
    rfl
  | cons c cs ih =>
    simp only [Graph.removeEdgesList] at h
    cases hl : lookupL g.edges c with
    | none => rw [hl] at h; cases h
    | some e =>
      rw [hl] at h
      have h' : Graph.removeEdgesList { g with edges := eraseL g.edges c } cs = .ok g' := h
      exact @ih { g with edges := eraseL g.edges c } h'

theorem removeEdgesList_preserves_none {g g' : Graph N E} {l : List EdgeID} {x : EdgeID}
    (hx : lookupL g.edges x = none) (h : Graph.removeEdgesList g l = .ok g') :
    lookupL g'.edges x = none := by
  induction l generalizing g with
  | nil =>
    simp only [Graph.removeEdgesList] at h
    cases h
    exact hx
  | cons c cs ih =>
    simp only [Graph.removeEdgesList] at h
    cases hl : lookupL g.edges c with
    | none => rw [hl] at h; cases h
    | some e =>
      rw [hl] at h
      have h' : Graph.removeEdgesList { g with edges := eraseL g.edges c } cs = .ok g' := h
      refine ih ?_ h'
      rw [lookupL_eraseL]
      by_cases hxc : x = c
      · simp [hxc]
      · simp [hxc, hx]

theorem removeEdgesList_removes_all {g g' : Graph N E} {l : List EdgeID}
    (h : Graph.removeEdgesList g l = .ok g') :
    ∀ c ∈ l, lookupL g'.edges c = none := by
  induction l generalizing g with
  | nil => simp
  | cons c cs ih =>
    intro x hx
    simp only [Graph.removeEdgesList] at h
    cases hl : lookupL g.edges c with
    | none => rw [hl] at h; cases h
    | some e =>
      rw [hl] at h
      have h' : Graph.removeEdgesList { g with edges := eraseL g.edges c } cs = .ok g' := h
      rcases List.mem_cons.mp hx with hxc | hxcs
      · subst hxc
        refine removeEdgesList_preserves_none ?_ h'
        rw [lookupL_eraseL]
        simp
      · exact ih h' x hxcs

theorem removeEdgesList_ok_iff {g : Graph N E} {l : List EdgeID} :
    (∃ g', Graph.removeEdgesList g l = .ok g') ↔
      (l.Nodup ∧ ∀ c ∈ l, (lookupL g.edges c).isSome = true) := by
  induction l generalizing g with
  | nil =>
    simp [Graph.removeEdgesList]
  | cons c cs ih =>
    constructor
    · rintro ⟨g', h⟩
      simp only [Graph.removeEdgesList] at h
      cases hl : lookupL g.edges c with
      | none => rw [hl] at h; cases h
      | some e =>
        rw [hl] at h
        have h' : Graph.removeEdgesList { g with edges := eraseL g.edges c } cs = .ok g' := h
        have hcs := ih.mp ⟨g', h'⟩
        have hck : c ∉ cs := by
          intro hc
          have := hcs.2 c hc
          rw [lookupL_eraseL] at this
          simp at this
        refine ⟨List.nodup_cons.mpr ⟨hck, hcs.1⟩, ?_⟩
        intro x hx
        rcases List.mem_cons.mp hx with hxc | hxcs
        · subst hxc; simp [hl]
        · have := hcs.2 x hxcs
          rw [lookupL_eraseL] at this
          by_cases hxc : x = c
          · simp [hxc, hl]
          · rw [if_neg hxc] at this
            exact this
    · rintro ⟨hnd, hlive⟩
      have hc := hlive c (by simp)
      cases hl : lookupL g.edges c with
      | none => simp [hl] at hc
      | some e =>
        have hck : c ∉ cs := (List.nodup_cons.mp hnd).1
        have hcs : ∀ x ∈ cs, (lookupL (eraseL g.edges c) x).isSome = true := by
          intro x hx
          rw [lookupL_eraseL]
          have hxc : ¬ x = c := fun h => hck (h ▸ hx)
          rw [if_neg hxc]
          exact hlive x (by simp [hx])
        obtain ⟨g', hg'⟩ :=
          (@ih { g with edges := eraseL g.edges c }).mpr ⟨(List.nodup_cons.mp hnd).2, hcs⟩
        exact ⟨g', by simp only [Graph.removeEdgesList, hl]; exact hg'⟩

theorem removeEdgesList_error_kind {g : Graph N E} {l : List EdgeID} {e : GraphError}
    (h : Graph.removeEdgesList g l = .error e) : e = .EdgeNotFound := by
  induction l generalizing g with
  | nil =>
    simp only [Graph.removeEdgesList] at h
    cases h
  | cons c cs ih =>
    simp only [Graph.removeEdgesList] at h
    cases hl : lookupL g.edges c with
    | none =>
      rw [hl] at h
      have h' : Except.error (α := Graph N E) GraphError.EdgeNotFound = .error e := h
      injection h' with h'
      exact h'.symm
    | some ed =>
      rw [hl] at h
      have h' : Graph.removeEdgesList { g with edges := eraseL g.edges c } cs = .error e := h
      exact ih h'

/-! Claims C1, C2, C3: node and edge removal. -/

/-- C1 (corrected), counterexample to the claim as stated: in gAB
(nodes 0 and 1, edge 0 from node 0 to node 1), remove_node 1 succeeds
and removes edge 0 from the edge arena, yet the surviving endpoint
node 0 still lists the dead EdgeID 0 in its connections — the claim's
"no surviving node's connections list contains the id" is false. -/
theorem remove_node_leaves_stale_connection_cex :
    Graph.remove_node gAB 1 = .ok gABr1 ∧
    Graph.node gABr1 0 = .ok ⟨0, 10, [0]⟩ ∧
    Graph.edge gABr1 0 = .error .EdgeNotFound :=
  ⟨rfl, rfl, rfl⟩

/-- C1 (amended): after a successful remove_node(n), every edge listed
in n's connections — in particular every edge whose from or to equals n
that was recorded there — is absent from the edge arena; but the ids
are not purged from surviving nodes' connections: the node arena is
exactly the old one minus n, every other node record (connections list
included) unchanged. -/
theorem remove_node_cascade_incomplete {N E : Type} (g g' : Graph N E) (n : NodeID)
    (nd : Node N) (hn : lookupL g.nodes n = some nd)
    (hok : Graph.remove_node g n = .ok g') :
    (∀ c ∈ nd.connections, lookupL g'.edges c = none) ∧
    (∀ eid e, lookupL g.edges eid = some e → (e.«from» = n ∨ e.«to» = n) →
      eid ∈ nd.connections → lookupL g'.edges eid = none) ∧
    g'.nodes = eraseL g.nodes n := by
  simp only [Graph.remove_node, hn] at hok
  have hok' :
      Graph.removeEdgesList { g with nodes := eraseL g.nodes n } nd.connections = .ok g' :=
    hok
  have h1 := removeEdgesList_removes_all hok'
  refine ⟨h1, ?_, ?_⟩
  · intro eid e _ _ hmem
    exact h1 eid hmem
  · exact removeEdgesList_nodes_eq hok'

/-- Witness for C1 (amended) at gAB with n = 1: edge 0 was listed in
node 1's connections and is gone afterwards. -/
theorem remove_node_cascade_incomplete_witness :
    lookupL gABr1.edges 0 = none :=
  (remove_node_cascade_incomplete gAB gABr1 1 ⟨1, 20, [0]⟩ rfl rfl).1 0 (by decide)

/-- C2 (corrected), counterexample to the claim as stated: removing
edge 0 of gAB succeeds, but both endpoints' connections still contain
the id 0 afterwards — nothing is retracted. -/
theorem remove_edge_keeps_connections_cex :
    Graph.remove_edge gAB 0 = .ok gABe0 ∧
    Graph.node gABe0 0 = .ok ⟨0, 10, [0]⟩ ∧
    Graph.node gABe0 1 = .ok ⟨1, 20, [0]⟩ ∧
    Graph.edge gABe0 0 = .error .EdgeNotFound :=
  ⟨rfl, rfl, rfl, rfl⟩

/-- C2 (amended): remove_edge on a live id succeeds and deletes only
the edge record; the node arena — hence every endpoint's connections
list — is returned unchanged. -/
theorem remove_edge_removes_record_only {N E : Type} (g : Graph N E) (id : EdgeID)
    (ed : Edge E) (he : lookupL g.edges id = some ed) :
    Graph.remove_edge g id = .ok { g with edges := eraseL g.edges id } := by
  simp [Graph.remove_edge, he]

/-- Witness for C2 (amended) at gAB with edge 0. -/
theorem remove_edge_removes_record_only_witness :
    Graph.remove_edge gAB 0 = .ok { gAB with edges := eraseL gAB.edges 0 } :=
  remove_edge_removes_record_only gAB 0 (Edge.new 0 0 1 ()) rfl

/-- C3 (corrected), counterexample to the claim as stated: in gABe0
(gAB after remove_edge 0) node 0 is still present, yet remove_node 0
fails with EdgeNotFound because the stale EdgeID 0 is still listed in
its connections — already-gone edges are an error, not tolerated. -/
theorem remove_node_errors_on_stale_edge_cex :
    Graph.node gABe0 0 = .ok ⟨0, 10, [0]⟩ ∧
    Graph.remove_node gABe0 0 = .error .EdgeNotFound :=
  ⟨rfl, rfl⟩

/-- C3 (amended): remove_node returns NodeNotFound exactly when the
node is absent; it succeeds if and only if the node is present and
every EdgeID in its connections is live and listed only once; and on a
present node whose connections hold a dead id or a duplicate (as with a
self-loop), it always fails with EdgeNotFound instead of tolerating the
already-gone edge. -/
theorem remove_node_success_characterization {N E : Type} (g : Graph N E) (id : NodeID) :
    (Graph.remove_node g id = .error .NodeNotFound ↔ lookupL g.nodes id = none) ∧
    ((∃ g', Graph.remove_node g id = .ok g') ↔
      ∃ nd, lookupL g.nodes id = some nd ∧ nd.connections.Nodup ∧
        ∀ c ∈ nd.connections, (lookupL g.edges c).isSome = true) ∧
    (∀ nd, lookupL g.nodes id = some nd →
      (¬ nd.connections.Nodup ∨ ∃ c ∈ nd.connections, lookupL g.edges c = none) →
      Graph.remove_node g id = .error .EdgeNotFound) := by
  have hsucc : (∃ g', Graph.remove_node g id = .ok g') ↔
      ∃ nd, lookupL g.nodes id = some nd ∧ nd.connections.Nodup ∧
        ∀ c ∈ nd.connections, (lookupL g.edges c).isSome = true := by
    constructor
    · rintro ⟨g', hg⟩
      cases hn : lookupL g.nodes id with
      | none => simp [Graph.remove_node, hn] at hg
      | some nd =>
        simp only [Graph.remove_node, hn] at hg
        have hg' :
            Graph.removeEdgesList { g with nodes := eraseL g.nodes id } nd.connections
              = .ok g' := hg
        have hch := removeEdgesList_ok_iff.mp ⟨g', hg'⟩
        exact ⟨nd, rfl, hch.1, hch.2⟩
    · rintro ⟨nd, hn, hnd, hlive⟩
      obtain ⟨g', hg⟩ :=
        (@removeEdgesList_ok_iff N E { g with nodes := eraseL g.nodes id }
          nd.connections).mpr ⟨hnd, hlive⟩
      exact ⟨g', by simp only [Graph.remove_node, hn]; exact hg⟩
  refine ⟨?_, hsucc, ?_⟩
  · constructor
    · intro h
      cases hn : lookupL g.nodes id with
      | none => rfl
      | some nd =>
        simp only [Graph.remove_node, hn] at h
        have h' :
            Graph.removeEdgesList { g with nodes := eraseL g.nodes id } nd.connections
              = .error .NodeNotFound := h
        cases removeEdgesList_error_kind h'
    · intro h
      simp [Graph.remove_node, h]
  · intro nd hn hbad
    cases hres : Graph.remove_node g id with
    | ok g' =>
      have hch := hsucc.mp ⟨g', hres⟩
      obtain ⟨nd', hn', hnodup, hlive⟩ := hch
      rw [hn] at hn'
      injection hn' with hn'
      subst hn'
      rcases hbad with h1 | ⟨c, hc, hcl⟩
      · exact absurd hnodup h1
      · have := hlive c hc
        rw [hcl] at this
        simp at this
    | error e =>
      simp only [Graph.remove_node, hn] at hres
      have hres' :
          Graph.removeEdgesList { g with nodes := eraseL g.nodes id } nd.connections
            = .error e := hres
      rw [removeEdgesList_error_kind hres']

/-- Witness for C3 (amended): the empty graph has no node 0 so
remove_node returns NodeNotFound; gABe0 (stale connection) and gLoop
(self-loop, duplicated connection) both make remove_node of a present
node fail with EdgeNotFound. -/
theorem remove_node_success_characterization_witness :
    Graph.remove_node (Graph.new : Graph Nat Unit) 0 = .error .NodeNotFound ∧
    Graph.remove_node gABe0 0 = .error .EdgeNotFound ∧
    Graph.remove_node gLoop 0 = .error .EdgeNotFound :=
  ⟨(remove_node_success_characterization (Graph.new : Graph Nat Unit) 0).1.mpr rfl,
   (remove_node_success_characterization gABe0 0).2.2 ⟨0, 10, [0]⟩ rfl
     (Or.inr ⟨0, by decide, rfl⟩),
   (remove_node_success_characterization gLoop 0).2.2 ⟨0, 10, [0, 0]⟩ rfl
     (Or.inl (by decide))⟩

/-! Helper lemmas for the DFS development. -/

theorem lookupL_mem {α : Type} {l : List (Nat × α)} {k : Nat} {a : α}
    (h : lookupL l k = some a) : (k, a) ∈ l := by
  induction l with
  | nil => simp [lookupL] at h
  | cons p rest ih =>
    simp only [lookupL] at h
    by_cases hk : p.1 = k
    · rw [if_pos hk] at h
      injection h with h2
      have hp : p = (k, a) := by
        cases p
        simp_all
      simp [hp]
    · rw [if_neg hk] at h
      exact List.mem_cons.mpr (Or.inr (ih h))

theorem connOk_spec {g : Graph N E} {c : EdgeID} (h : connOk g c = true) :
    ∃ e, lookupL g.edges c = some e ∧ e.«to» ∈ nodeKeys g := by
  unfold connOk at h
  cases hl : lookupL g.edges c with
  | none => rw [hl] at h; simp at h
  | some e =>
    rw [hl] at h
    exact ⟨e, rfl, by simpa using h⟩

theorem succsD_of_lookup {g : Graph N E} {n : NodeID} {nd : Node N}
    (h : lookupL g.nodes n = some nd) :
    succsD g n =
      nd.connections.filterMap (fun c => (lookupL g.edges c).map (fun e => e.«to»)) := by
  simp [succsD, h]

theorem succsD_subset_keys {g : Graph N E} (hc : ConnClosed g) (n : NodeID) :
    ∀ x ∈ succsD g n, x ∈ nodeKeys g := by
  intro x hx
  unfold succsD at hx
  cases hl : lookupL g.nodes n with
  | none => rw [hl] at hx; simp at hx
  | some nd =>
    rw [hl] at hx
    rcases List.mem_filterMap.mp hx with ⟨c, hcm, hsome⟩
    have hok := hc (n, nd) (lookupL_mem hl) c hcm
    rcases connOk_spec hok with ⟨e, he, hto⟩
    rcases Option.map_eq_some'.mp hsome with ⟨e', he', hx'⟩
    rw [he] at he'
    injection he' with hee
    subst hee
    exact hx' ▸ hto

theorem le_foldr_max {l : List (NodeID × Node N)} {p : NodeID × Node N}
    (h : p ∈ l) :
    p.2.connections.length ≤ l.foldr (fun q m => max q.2.connections.length m) 0 := by
  induction l with
  | nil => simp at h
  | cons q rest ih =>
    rcases List.mem_cons.mp h with h1 | h2
    · subst h1
      exact le_max_left _ _
    · exact le_trans (ih h2) (le_max_right _ _)

theorem connections_le_maxConn {g : Graph N E} {n : NodeID} {nd : Node N}
    (h : lookupL g.nodes n = some nd) : nd.connections.length ≤ maxConn g :=
  le_foldr_max (lookupL_mem h)

theorem pushTargets_eq {g : Graph N E} :
    ∀ (cs : List EdgeID) (v : Finset NodeID) (st st' : List NodeID),
      pushTargets g cs v st = some st' →
      st' = ((cs.filterMap (fun c => (lookupL g.edges c).map (fun e => e.«to»))).filter
              (fun x => decide (x ∉ v))).reverse ++ st
  | [], v, st, st', h => by
    simp only [pushTargets] at h
    injection h with h
    simp [h.symm]
  | c :: cs, v, st, st', h => by
    simp only [pushTargets] at h
    cases hl : lookupL g.edges c with
    | none => rw [hl] at h; cases h
    | some e =>
      rw [hl] at h
      have ih := pushTargets_eq cs v (if e.«to» ∈ v then st else e.«to» :: st) st' h
      rw [ih]
      by_cases hv : e.«to» ∈ v
      · simp [hl, hv, List.filterMap_cons]
      · simp [hl, hv, List.filterMap_cons]

theorem pushTargets_total {g : Graph N E} :
    ∀ (cs : List EdgeID) (v : Finset NodeID) (st : List NodeID),
      (∀ c ∈ cs, connOk g c = true) →
      (∀ x ∈ st, x ∈ nodeKeys g) →
      ∃ st', pushTargets g cs v st = some st' ∧
        st'.length ≤ cs.length + st.length ∧
        (∀ x ∈ st', x ∈ nodeKeys g)
  | [], v, st, _, hst => ⟨st, rfl, by simp, hst⟩
  | c :: cs, v, st, hok, hst => by
    rcases connOk_spec (hok c (by simp)) with ⟨e, he, hto⟩
    have hok' : ∀ x ∈ cs, connOk g x = true := fun x hx => hok x (by simp [hx])
    by_cases hv : e.«to» ∈ v
    · rcases pushTargets_total cs v st hok' hst with ⟨st', h1, h2, h3⟩
      refine ⟨st', ?_, by simp only [List.length_cons]; omega, h3⟩
      simp only [pushTargets, he, if_pos hv]
      exact h1
    · have hst0 : ∀ x ∈ e.«to» :: st, x ∈ nodeKeys g := by
        intro x hx
        rcases List.mem_cons.mp hx with h1 | h2
        · exact h1 ▸ hto
        · exact hst x h2
      rcases pushTargets_total cs v (e.«to» :: st) hok' hst0 with ⟨st', h1, h2, h3⟩
      refine ⟨st', ?_, ?_, h3⟩
      · simp only [pushTargets, he, if_neg hv]
        exact h1
      · simp only [List.length_cons] at h2 ⊢
        omega

/-! Properties of the reference recursive DFS. -/

theorem recDfs_visited (g : Graph N E) :
    ∀ (l : List NodeID) (v : Finset NodeID),
      (recDfs g l v).2 = v ∪ (recDfs g l v).1.toFinset := by
  intro l v
  induction l, v using recDfs.induct g with
  | case1 v => simp [recDfs]
  | case2 n rest v hv ih => simpa only [recDfs, dif_pos hv] using ih
  | case3 n rest v hv hk ih =>
    simp only [recDfs, dif_neg hv, dif_pos hk]
    rw [ih]
    rw [List.toFinset_cons, Finset.insert_union, Finset.union_insert]
  | case4 n rest v hv hk ih => simpa only [recDfs, dif_neg hv, dif_neg hk] using ih

theorem recDfs_mono (g : Graph N E) (l : List NodeID) (v : Finset NodeID) :
    v ⊆ (recDfs g l v).2 := by
  rw [recDfs_visited]
  exact Finset.subset_union_left

theorem recDfs_nodup_fresh (g : Graph N E) :
    ∀ (l : List NodeID) (v : Finset NodeID),
      (recDfs g l v).1.Nodup ∧ ∀ y ∈ (recDfs g l v).1, y ∉ v := by
  intro l v
  induction l, v using recDfs.induct g with
  | case1 v => simp [recDfs]
  | case2 n rest v hv ih => simpa only [recDfs, dif_pos hv] using ih
  | case3 n rest v hv hk ih =>
    simp only [recDfs, dif_neg hv, dif_pos hk]
    obtain ⟨ihn, ihf⟩ := ih
    refine ⟨List.nodup_cons.mpr ⟨?_, ihn⟩, ?_⟩
    · intro hmem
      exact (ihf n hmem) (Finset.mem_insert_self n v)
    · intro y hy
      rcases List.mem_cons.mp hy with h1 | h2
      · exact h1 ▸ hv
      · intro hyv
        exact (ihf y h2) (Finset.mem_insert_of_mem hyv)
  | case4 n rest v hv hk ih => simpa only [recDfs, dif_neg hv, dif_neg hk] using ih

theorem recDfs_yields_keys (g : Graph N E) :
    ∀ (l : List NodeID) (v : Finset NodeID),
      ∀ y ∈ (recDfs g l v).1, y ∈ nodeKeys g := by
  intro l v
  induction l, v using recDfs.induct g with
  | case1 v => simp [recDfs]
  | case2 n rest v hv ih => simpa only [recDfs, dif_pos hv] using ih
  | case3 n rest v hv hk ih =>
    simp only [recDfs, dif_neg hv, dif_pos hk]
    intro y hy
    rcases List.mem_cons.mp hy with h1 | h2
    · exact h1 ▸ hk
    · exact ih y h2
  | case4 n rest v hv hk ih => simpa only [recDfs, dif_neg hv, dif_neg hk] using ih

theorem recDfs_append (g : Graph N E) :
    ∀ (a : List NodeID) (v : Finset NodeID) (b : List NodeID),
      recDfs g (a ++ b) v =
        ((recDfs g a v).1 ++ (recDfs g b (recDfs g a v).2).1,
         (recDfs g b (recDfs g a v).2).2) := by
  intro a v
  induction a, v using recDfs.induct g with
  | case1 v =>
    intro b
    simp [recDfs]
  | case2 n rest v hv ih =>
    intro b
    simp only [List.cons_append, recDfs, dif_pos hv]
    exact ih b
  | case3 n rest v hv hk ih =>
    intro b
    simp only [List.cons_append, recDfs, dif_neg hv, dif_pos hk]
    rw [← List.append_assoc, ih b]
  | case4 n rest v hv hk ih =>
    intro b
    simp only [List.cons_append, recDfs, dif_neg hv, dif_neg hk]
    exact ih b

theorem recDfs_filter_irrel (g : Graph N E) :
    ∀ (cs : List NodeID) (v w : Finset NodeID) (rest : List NodeID), v ⊆ w →
      recDfs g ((cs.filter (fun x => decide (x ∉ v))) ++ rest) w =
        recDfs g (cs ++ rest) w := by
  intro cs
  induction cs with
  | nil =>
    intro v w rest _
    rfl
  | cons c cs ih =>
    intro v w rest hvw
    by_cases hcv : c ∈ v
    · have hcw : c ∈ w := hvw hcv
      have hfil : List.filter (fun x => decide (x ∉ v)) (c :: cs) =
          List.filter (fun x => decide (x ∉ v)) cs :=
        List.filter_cons_of_neg (by simp [hcv])
      rw [hfil]
      have hrhs : recDfs g ((c :: cs) ++ rest) w = recDfs g (cs ++ rest) w := by
        simp only [List.cons_append, recDfs, dif_pos hcw]
      rw [hrhs]
      exact ih v w rest hvw
    · have hfil : List.filter (fun x => decide (x ∉ v)) (c :: cs) =
          c :: List.filter (fun x => decide (x ∉ v)) cs :=
        List.filter_cons_of_pos (by simp [hcv])
      rw [hfil]
      by_cases hcw : c ∈ w
      · simp only [List.cons_append, recDfs, dif_pos hcw]
        exact ih v w rest hvw
      · by_cases hck : c ∈ nodeKeys g
        · simp only [List.cons_append, recDfs, dif_neg hcw, dif_pos hck]
          rw [recDfs_append g (succsD g c) (insert c w)
                (cs.filter (fun x => decide (x ∉ v)) ++ rest),
              recDfs_append g (succsD g c) (insert c w) (cs ++ rest)]
          have hsub : v ⊆ (recDfs g (succsD g c) (insert c w)).2 :=
            subset_trans hvw
              (subset_trans (Finset.subset_insert c w)
                (recDfs_mono g (succsD g c) (insert c w)))
          rw [ih v (recDfs g (succsD g c) (insert c w)).2 rest hsub]
        · simp only [List.cons_append, recDfs, dif_neg hcw, dif_neg hck]
          exact ih v w rest hvw

/-! Simulation: a finished run of the iterator equals the recursive DFS. -/

theorem dfsAux_finished_eq_recDfs (g : Graph N E) :
    ∀ (fuel : Nat) (stack : List NodeID) (visited : Finset NodeID) (ys : List NodeID),
      dfsAux g fuel stack visited = .finished ys →
      (recDfs g stack visited).1 = ys := by
  intro fuel
  induction fuel with
  | zero =>
    intro stack visited ys h
    simp [dfsAux] at h
  | succ fuel ih =>
    intro stack visited ys h
    cases stack with
    | nil =>
      simp only [dfsAux] at h
      injection h with h
      subst h
      simp [recDfs]
    | cons n rest =>
      simp only [dfsAux] at h
      by_cases hv : n ∈ visited
      · rw [if_pos hv] at h
        simp only [recDfs, dif_pos hv]
        exact ih rest visited ys h
      · rw [if_neg hv] at h
        cases hl : lookupL g.nodes n with
        | none => rw [hl] at h; cases h
        | some nd =>
          rw [hl] at h
          have h2 :
              (match pushTargets g nd.connections.reverse (insert n visited) rest with
                | none => DfsOut.panicked
                | some stack2 =>
                  match dfsAux g fuel stack2 (insert n visited) with
                  | .finished ys => .finished (n :: ys)
                  | r => r) = DfsOut.finished ys := h
          cases hp : pushTargets g nd.connections.reverse (insert n visited) rest with
          | none => rw [hp] at h2; cases h2
          | some stack2 =>
            rw [hp] at h2
            have h3 :
                (match dfsAux g fuel stack2 (insert n visited) with
                  | .finished ys => DfsOut.finished (n :: ys)
                  | r => r) = DfsOut.finished ys := h2
            cases hrec : dfsAux g fuel stack2 (insert n visited) with
            | outOfFuel => rw [hrec] at h3; cases h3
            | panicked => rw [hrec] at h3; cases h3
            | finished ys' =>
              rw [hrec] at h3
              injection h3 with h3
              subst h3
              have hk : n ∈ nodeKeys g := mem_nodeKeys_of_lookupL hl
              have hstack2 : stack2 =
                  ((succsD g n).filter (fun x => decide (x ∉ insert n visited))) ++ rest := by
                have hpe := pushTargets_eq nd.connections.reverse (insert n visited) rest stack2 hp
                rw [hpe, List.filterMap_reverse, List.filter_reverse,
                  List.reverse_reverse, succsD_of_lookup hl]
              simp only [recDfs, dif_neg hv, dif_pos hk]
              have hfi := recDfs_filter_irrel g (succsD g n) (insert n visited)
                (insert n visited) rest (subset_refl _)
              rw [← hfi, ← hstack2, ih stack2 (insert n visited) ys' hrec]

/-! Fuel sufficiency: under the closure invariant the iterator neither
runs out of fuel nor panics. -/

theorem dfsAux_finishes (g : Graph N E) (hc : ConnClosed g) :
    ∀ (fuel : Nat) (stack : List NodeID) (visited : Finset NodeID),
      (∀ x ∈ stack, x ∈ nodeKeys g) →
      (nodeKeys g \ visited).card * (maxConn g + 1) + stack.length < fuel →
      ∃ ys, dfsAux g fuel stack visited = .finished ys := by
  intro fuel
  induction fuel with
  | zero =>
    intro stack visited _ hlt
    omega
  | succ fuel ih =>
    intro stack visited hstack hlt
    cases stack with
    | nil => exact ⟨[], rfl⟩
    | cons n rest =>
      by_cases hv : n ∈ visited
      · have hrest : ∀ x ∈ rest, x ∈ nodeKeys g := fun x hx => hstack x (by simp [hx])
        have hlt' : (nodeKeys g \ visited).card * (maxConn g + 1) + rest.length < fuel := by
          simp only [List.length_cons] at hlt
          omega
        obtain ⟨ys, hys⟩ := ih rest visited hrest hlt'
        exact ⟨ys, by simp only [dfsAux, if_pos hv]; exact hys⟩
      · have hk : n ∈ nodeKeys g := hstack n (by simp)
        have hsome := lookupL_nodes_isSome_of_mem_nodeKeys hk
        cases hl : lookupL g.nodes n with
        | none => rw [hl] at hsome; simp at hsome
        | some nd =>
          have hconn : ∀ c ∈ nd.connections.reverse, connOk g c = true := by
            intro c hcm
            exact hc (n, nd) (lookupL_mem hl) c (List.mem_reverse.mp hcm)
          have hrest : ∀ x ∈ rest, x ∈ nodeKeys g := fun x hx => hstack x (by simp [hx])
          obtain ⟨stack2, hp, hlen, hmem⟩ :=
            pushTargets_total nd.connections.reverse (insert n visited) rest hconn hrest
          have hcard : (nodeKeys g \ visited).card =
              (nodeKeys g \ insert n visited).card + 1 := by
            have hsd : nodeKeys g \ insert n visited = (nodeKeys g \ visited).erase n := by
              ext x
              simp only [Finset.mem_sdiff, Finset.mem_erase, Finset.mem_insert]
              tauto
            have hmem' : n ∈ nodeKeys g \ visited := Finset.mem_sdiff.mpr ⟨hk, hv⟩
            rw [hsd, Finset.card_erase_of_mem hmem']
            have := Finset.card_pos.mpr ⟨n, hmem'⟩
            omega
          have hconlen : nd.connections.length ≤ maxConn g := connections_le_maxConn hl
          have hlt' : (nodeKeys g \ insert n visited).card * (maxConn g + 1) +
              stack2.length < fuel := by
            rw [hcard] at hlt
            have hexp : ((nodeKeys g \ insert n visited).card + 1) * (maxConn g + 1) =
                (nodeKeys g \ insert n visited).card * (maxConn g + 1) +
                  (maxConn g + 1) := by ring
            rw [hexp] at hlt
            simp only [List.length_cons, List.length_reverse] at hlt hlen
            omega
          obtain ⟨ys', hys'⟩ := ih stack2 (insert n visited) hmem hlt'
          refine ⟨n :: ys', ?_⟩
          simp only [dfsAux, if_neg hv, hl, hp, hys']

/-! Soundness and completeness of the traversal with respect to
reachability along successor steps. -/

theorem recDfs_sound (g : Graph N E) (s : NodeID) :
    ∀ (l : List NodeID) (v : Finset NodeID),
      (∀ x ∈ l, Reach g s x) → ∀ y ∈ (recDfs g l v).1, Reach g s y := by
  intro l v
  induction l, v using recDfs.induct g with
  | case1 v => simp [recDfs]
  | case2 n rest v hv ih =>
    intro hl
    simp only [recDfs, dif_pos hv]
    exact ih (fun x hx => hl x (by simp [hx]))
  | case3 n rest v hv hk ih =>
    intro hl
    simp only [recDfs, dif_neg hv, dif_pos hk]
    intro y hy
    rcases List.mem_cons.mp hy with h1 | h2
    · exact h1 ▸ hl n (by simp)
    · refine ih ?_ y h2
      intro x hx
      rcases List.mem_append.mp hx with hx1 | hx2
      · exact Relation.ReflTransGen.tail (hl n (by simp)) hx1
      · exact hl x (by simp [hx2])
  | case4 n rest v hv hk ih =>
    intro hl
    simp only [recDfs, dif_neg hv, dif_neg hk]
    exact ih (fun x hx => hl x (by simp [hx]))

theorem recDfs_worklist_visited (g : Graph N E) (hc : ConnClosed g) :
    ∀ (l : List NodeID) (v : Finset NodeID),
      (∀ x ∈ l, x ∈ nodeKeys g) → ∀ x ∈ l, x ∈ (recDfs g l v).2 := by
  intro l v
  induction l, v using recDfs.induct g with
  | case1 v => simp
  | case2 n rest v hv ih =>
    intro hl x hx
    simp only [recDfs, dif_pos hv]
    rcases List.mem_cons.mp hx with h1 | h2
    · exact recDfs_mono g rest v (h1 ▸ hv)
    · exact ih (fun y hy => hl y (by simp [hy])) x h2
  | case3 n rest v hv hk ih =>
    intro hl x hx
    simp only [recDfs, dif_neg hv, dif_pos hk]
    have hsuccs : ∀ y ∈ succsD g n ++ rest, y ∈ nodeKeys g := by
      intro y hy
      rcases List.mem_append.mp hy with h1 | h2
      · exact succsD_subset_keys hc n y h1
      · exact hl y (by simp [h2])
    rcases List.mem_cons.mp hx with h1 | h2
    · exact recDfs_mono g _ (insert n v) (h1 ▸ Finset.mem_insert_self n v)
    · exact ih hsuccs x (List.mem_append.mpr (Or.inr h2))
  | case4 n rest v hv hk ih =>
    intro hl x hx
    rcases List.mem_cons.mp hx with h1 | h2
    · exact absurd (h1 ▸ hl x hx) hk
    · simp only [recDfs, dif_neg hv, dif_neg hk]
      exact ih (fun y hy => hl y (by simp [hy])) x h2

theorem recDfs_closed_under_step (g : Graph N E) (hc : ConnClosed g) :
    ∀ (l : List NodeID) (v : Finset NodeID),
      (∀ x ∈ l, x ∈ nodeKeys g) →
      ∀ y ∈ (recDfs g l v).1, ∀ t, Step g y t → t ∈ (recDfs g l v).2 := by
  intro l v
  induction l, v using recDfs.induct g with
  | case1 v => simp [recDfs]
  | case2 n rest v hv ih =>
    intro hl y hy t hstep
    simp only [recDfs, dif_pos hv] at hy ⊢
    exact ih (fun x hx => hl x (by simp [hx])) y hy t hstep
  | case3 n rest v hv hk ih =>
    intro hl y hy t hstep
    have hsuccs : ∀ x ∈ succsD g n ++ rest, x ∈ nodeKeys g := by
      intro x hx
      rcases List.mem_append.mp hx with h1 | h2
      · exact succsD_subset_keys hc n x h1
      · exact hl x (by simp [h2])
    simp only [recDfs, dif_neg hv, dif_pos hk] at hy ⊢
    rcases List.mem_cons.mp hy with h1 | h2
    · subst h1
      exact recDfs_worklist_visited g hc (succsD g y ++ rest) (insert y v) hsuccs t
        (List.mem_append.mpr (Or.inl hstep))
    · exact ih hsuccs y h2 t hstep
  | case4 n rest v hv hk ih =>
    intro hl y hy t hstep
    simp only [recDfs, dif_neg hv, dif_neg hk] at hy ⊢
    exact ih (fun x hx => hl x (by simp [hx])) y hy t hstep

/-- Full characterization of a DFS run under the closure invariant: it
finishes, and the yields are exactly the nodes reachable from the live
start, each live and yielded once. -/
theorem dfs_run_spec (g : Graph N E) (s : NodeID) (hc : ConnClosed g)
    (hs : s ∈ nodeKeys g) :
    ∃ ys, iter_depth_first g s = .finished ys ∧ ys.Nodup ∧
      (∀ y, y ∈ ys ↔ Reach g s y) ∧ (∀ y ∈ ys, y ∈ nodeKeys g) := by
  have hK : (nodeKeys g).card ≤ g.nodes.length := by
    have h := List.toFinset_card_le (g.nodes.map Prod.fst)
    simpa [nodeKeys] using h
  have hmul : (nodeKeys g).card * (maxConn g + 1) ≤
      g.nodes.length * (maxConn g + 1) :=
    Nat.mul_le_mul_right _ hK
  have hexp : (g.nodes.length + 1) * (maxConn g + 1) =
      g.nodes.length * (maxConn g + 1) + (maxConn g + 1) := by ring
  have hbound : (nodeKeys g \ ∅).card * (maxConn g + 1) + ([s] : List NodeID).length <
      dfsFuel g := by
    simp only [Finset.sdiff_empty, List.length_cons, List.length_nil, dfsFuel]
    rw [hexp]
    omega
  obtain ⟨ys, hys⟩ := dfsAux_finishes g hc (dfsFuel g) [s] ∅ (by simpa using hs) hbound
  have hsim := dfsAux_finished_eq_recDfs g (dfsFuel g) [s] ∅ ys hys
  have hfinal : (recDfs g [s] ∅).2 = ys.toFinset := by
    rw [recDfs_visited, hsim]
    simp
  refine ⟨ys, hys, ?_, ?_, ?_⟩
  · rw [← hsim]
    exact (recDfs_nodup_fresh g [s] ∅).1
  · intro y
    constructor
    · intro hy
      refine recDfs_sound g s [s] ∅ ?_ y (by rw [hsim]; exact hy)
      intro x hx
      rcases List.mem_cons.mp hx with h1 | h2
      · exact h1 ▸ Relation.ReflTransGen.refl
      · simp at h2
    · intro hr
      induction hr with
      | refl =>
        have := recDfs_worklist_visited g hc [s] ∅ (by simpa using hs) s (by simp)
        rw [hfinal] at this
        exact List.mem_toFinset.mp this
      | tail hab hstep ih =>
        rename_i b c
        have hb := ih
        have := recDfs_closed_under_step g hc [s] ∅ (by simpa using hs) b
          (by rw [hsim]; exact hb) c hstep
        rw [hfinal] at this
        exact List.mem_toFinset.mp this
  · intro y hy
    exact recDfs_yields_keys g [s] ∅ y (by rw [hsim]; exact hy)

/-- Invariant proof of the connected_components loop: with live keys and
the closure invariant the loop finishes; each produced component is a
set of live nodes closed under successor steps, and every processed key
lands in some component. -/
theorem ccAux_spec (g : Graph N E) (hc : ConnClosed g) :
    ∀ (ks : List NodeID) (visited : Finset NodeID) (comps : List (Finset NodeID)),
      (∀ k ∈ ks, k ∈ nodeKeys g) →
      (∀ x ∈ visited, ∃ S ∈ comps, x ∈ S) →
      ∃ newcomps, ccAux g ks visited comps = some (comps ++ newcomps) ∧
        (∀ S ∈ newcomps, (∀ u ∈ S, u ∈ nodeKeys g) ∧
          (∀ u ∈ S, ∀ t, Step g u t → t ∈ S)) ∧
        (∀ k ∈ ks, ∃ S ∈ comps ++ newcomps, k ∈ S) := by
  intro ks
  induction ks with
  | nil =>
    intro visited comps _ _
    exact ⟨[], by simp [ccAux], by simp, by simp⟩
  | cons k ks ih =>
    intro visited comps hks hvis
    by_cases hkv : k ∈ visited
    · obtain ⟨nc, h1, h2, h3⟩ := ih visited comps (fun x hx => hks x (by simp [hx])) hvis
      refine ⟨nc, ?_, h2, ?_⟩
      · simp only [ccAux, if_pos hkv]
        exact h1
      · intro x hx
        rcases List.mem_cons.mp hx with h4 | h5
        · obtain ⟨S, hS, hxS⟩ := hvis x (h4 ▸ hkv)
          exact ⟨S, List.mem_append.mpr (Or.inl hS), hxS⟩
        · exact h3 x h5
    · have hk : k ∈ nodeKeys g := hks k (by simp)
      obtain ⟨ys, hys, hnd, hiff, hkeys⟩ := dfs_run_spec g k hc hk
      have hvis' : ∀ x ∈ visited ∪ ys.toFinset, ∃ S ∈ comps ++ [ys.toFinset], x ∈ S := by
        intro x hx
        rcases Finset.mem_union.mp hx with h1 | h2
        · obtain ⟨S, hS, hxS⟩ := hvis x h1
          exact ⟨S, by simp [hS], hxS⟩
        · exact ⟨ys.toFinset, by simp, h2⟩
      obtain ⟨nc, h1, h2, h3⟩ := ih (visited ∪ ys.toFinset) (comps ++ [ys.toFinset])
        (fun x hx => hks x (by simp [hx])) hvis'
      refine ⟨ys.toFinset :: nc, ?_, ?_, ?_⟩
      · simp only [ccAux, if_neg hkv, hys]
        rw [h1]
        congr 1
        simp
      · intro S hS
        rcases List.mem_cons.mp hS with h4 | h5
        · subst h4
          constructor
          · intro u hu
            exact hkeys u (List.mem_toFinset.mp hu)
          · intro u hu t hstep
            have hru : Reach g k u := (hiff u).mp (List.mem_toFinset.mp hu)
            exact List.mem_toFinset.mpr
              ((hiff t).mpr (Relation.ReflTransGen.tail hru hstep))
        · exact h2 S h5
      · intro x hx
        rcases List.mem_cons.mp hx with h4 | h5
        · subst h4
          exact ⟨ys.toFinset, by simp,
            List.mem_toFinset.mpr ((hiff x).mpr Relation.ReflTransGen.refl)⟩
        · obtain ⟨S, hS, hxS⟩ := h3 x h5
          refine ⟨S, ?_, hxS⟩
          simp only [List.mem_append, List.mem_cons, List.mem_singleton] at hS ⊢
          tauto

/-! Claims C4, C5, C6, C7: the traversal engines. -/

/-- C4 (corrected), counterexample to the claim as stated: in gBA
(nodes 0, 1, single edge 1 → 0) connected_components returns the two
sets {0} and {1, 0}; node 0 appears in both distinct component sets, so
the components are not pairwise disjoint, and the edge's endpoints 1
and 0 do not land in a common unique component. -/
theorem connected_components_overlap_cex :
    connected_components gBA = some [{0}, {1, 0}] ∧
    (0 : NodeID) ∈ ({0} : Finset NodeID) ∧
    (0 : NodeID) ∈ ({1, 0} : Finset NodeID) ∧
    ({0} : Finset NodeID) ≠ ({1, 0} : Finset NodeID) :=
  ⟨by decide, by decide, by decide, by decide⟩

/-- C4 (amended): under the closure invariant, connected_components
succeeds; every component consists of live nodes and is closed under
successor steps — so for any live edge recorded in its from-endpoint's
connections, a component containing the from-endpoint also contains the
to-endpoint — and every live node lies in at least one component (the
union of the components is the node set).  The components need not be
pairwise disjoint. -/
theorem connected_components_union_closed (g : Graph N E) (hc : ConnClosed g) :
    ∃ comps, connected_components g = some comps ∧
      (∀ S ∈ comps, ∀ u ∈ S, u ∈ nodeKeys g) ∧
      (∀ S ∈ comps, ∀ u ∈ S, ∀ t, Step g u t → t ∈ S) ∧
      (∀ k ∈ nodeKeys g, ∃ S ∈ comps, k ∈ S) := by
  have hkeys : ∀ k ∈ Graph.nodesList g, k ∈ nodeKeys g := by
    intro k hk
    simpa [nodeKeys, Graph.nodesList] using List.mem_toFinset.mpr hk
  obtain ⟨nc, h1, h2, h3⟩ := ccAux_spec g hc g.nodesList ∅ [] hkeys (by simp)
  refine ⟨nc, ?_, ?_, ?_, ?_⟩
  · simpa [connected_components] using h1
  · intro S hS u hu
    exact (h2 S hS).1 u hu
  · intro S hS
    exact (h2 S hS).2
  · intro k hk
    obtain ⟨S, hS, hkS⟩ := h3 k (by simpa [nodeKeys, Graph.nodesList] using hk)
    exact ⟨S, by simpa using hS, hkS⟩

/-- Witness for C4 (amended) at gBA: the closure invariant holds there
and connected_components returns a value. -/
theorem connected_components_union_closed_witness :
    (connected_components gBA).isSome = true := by
  obtain ⟨comps, h1, _⟩ := connected_components_union_closed gBA (by decide)
  rw [h1]
  rfl

/-- C5 (corrected), counterexample to the claim as stated: in gDangling
the start node 0 is present and node 1 is reachable from it (via edge 1),
but the traversal hits the dangling target 99 first and panics — it
never yields node 1 and produces no finished sequence. -/
theorem dfs_panics_before_reaching_node_cex :
    (lookupL gDangling.nodes 0).isSome = true ∧
    Reach gDangling 0 1 ∧
    iter_depth_first gDangling 0 = DfsOut.panicked :=
  ⟨by decide, Relation.ReflTransGen.single (by decide), by decide⟩

/-- C5 (amended): on a graph satisfying the closure invariant (every
connection of every live node resolves to a live edge whose to-endpoint
is live), the DFS from a live start finishes, yields exactly the nodes
reachable from the start along successor steps, yields none twice, and
yields at most node_count nodes. -/
theorem dfs_yields_reachable_exactly_once (g : Graph N E) (s : NodeID)
    (hc : ConnClosed g) (hs : s ∈ nodeKeys g) :
    ∃ ys, iter_depth_first g s = .finished ys ∧ ys.Nodup ∧
      (∀ y, y ∈ ys ↔ Reach g s y) ∧ ys.length ≤ g.node_count := by
  obtain ⟨ys, h1, h2, h3, h4⟩ := dfs_run_spec g s hc hs
  refine ⟨ys, h1, h2, h3, ?_⟩
  have hsub : ys.toFinset ⊆ nodeKeys g := fun y hy => h4 y (List.mem_toFinset.mp hy)
  calc ys.length = ys.toFinset.card := (List.toFinset_card_of_nodup h2).symm
    _ ≤ (nodeKeys g).card := Finset.card_le_card hsub
    _ ≤ (g.nodes.map Prod.fst).length := List.toFinset_card_le _
    _ = g.node_count := by simp [Graph.node_count]

/-- Witness for C5 (amended) at gAB from start 0: the invariant holds,
the run finishes with [0, 1], and node 1 is reachable from 0. -/
theorem dfs_yields_reachable_exactly_once_witness :
    iter_depth_first gAB 0 = DfsOut.finished [0, 1] ∧ Reach gAB 0 1 := by
  obtain ⟨ys, h1, _, hiff, _⟩ :=
    dfs_yields_reachable_exactly_once gAB 0 (by decide) (by decide)
  have hconc : iter_depth_first gAB 0 = DfsOut.finished [0, 1] := by decide
  refine ⟨hconc, ?_⟩
  rw [hconc] at h1
  injection h1 with h1
  exact (hiff 1).mp (by rw [← h1]; simp)

/-- C6 (confirmed): a finished run of the stack-based iterator equals
the reference recursive pre-order DFS (children in connections order)
from the same start; determinism is inherent, the embedded traversal
being a pure function of the graph and the start node. -/
theorem dfs_matches_recursive_preorder (g : Graph N E) (s : NodeID)
    (ys : List NodeID) (h : iter_depth_first g s = .finished ys) :
    ys = (recDfs g [s] ∅).1 :=
  (dfsAux_finished_eq_recDfs g (dfsFuel g) [s] ∅ ys h).symm

/-- Witness for C6 at gAB from start 0. -/
theorem dfs_matches_recursive_preorder_witness :
    ([0, 1] : List NodeID) = (recDfs gAB [0] ∅).1 :=
  dfs_matches_recursive_preorder gAB 0 [0, 1] (by decide)

/-- C7 (corrected), counterexample to the claim as stated: the DFS
iterator's internal node lookup does panic on a graph with a dangling
edge endpoint (the unwrap in DepthFirstSearch::next), even though the
plain lookup operations return graceful errors on the same id. -/
theorem dfs_unwrap_panics_cex :
    iter_depth_first gDangling 0 = DfsOut.panicked ∧
    Graph.node gDangling 99 = .error .NodeNotFound :=
  ⟨by decide, rfl⟩

/-- C7 (amended): the graph lookup operations node and edge return
explicit NodeNotFound/EdgeNotFound errors on absent or stale ids (they
are total and never panic), and the DFS traversal's internal unwraps
cannot fail on graphs satisfying the closure invariant — but only on
such graphs (see the counterexample). -/
theorem lookups_fail_gracefully_dfs_needs_closure (g : Graph N E) :
    (∀ id, id ∉ nodeKeys g → Graph.node g id = .error .NodeNotFound) ∧
    (∀ id, lookupL g.edges id = none → Graph.edge g id = .error .EdgeNotFound) ∧
    (ConnClosed g → ∀ s ∈ nodeKeys g,
      iter_depth_first g s ≠ .panicked ∧ iter_depth_first g s ≠ .outOfFuel) := by
  refine ⟨?_, ?_, ?_⟩
  · intro id hid
    have hnone : lookupL g.nodes id = none := by
      cases hl : lookupL g.nodes id with
      | none => rfl
      | some nd => exact absurd (mem_nodeKeys_of_lookupL hl) hid
    simp [Graph.node, hnone]
  · intro id hid
    simp [Graph.edge, hid]
  · intro hc s hs
    obtain ⟨ys, h1, _, _, _⟩ := dfs_run_spec g s hc hs
    rw [h1]
    exact ⟨by simp, by simp⟩

/-- Witness for C7 (amended) at gAB: a bad node id errors, and the DFS
from node 0 does not panic. -/
theorem lookups_fail_gracefully_witness :
    Graph.node gAB 5 = .error .NodeNotFound ∧
    iter_depth_first gAB 0 ≠ DfsOut.panicked :=
  ⟨(lookups_fail_gracefully_dfs_needs_closure gAB).1 5 (by decide),
   ((lookups_fail_gracefully_dfs_needs_closure gAB).2.2 (by decide) 0 (by decide)).1⟩

/-! Claims C8, C9, C10: edge insertion and the batch helper. -/

theorem lookupL_modifyL_isSome {α : Type} (l : List (Nat × α)) (k x : Nat) (f : α → α) :
    (lookupL (modifyL l k f) x).isSome = (lookupL l x).isSome := by
  rw [lookupL_modifyL]
  by_cases hx : x = k <;> simp [hx]

/-- Decomposition of add_edge: the fresh id is the edge counter, the
record is appended to the edge arena, and each endpoint's node record is
modified exactly when that endpoint is live. -/
theorem add_edge_result {N E : Type} (g : Graph N E) (f t : NodeID) (d : E) :
    g.add_edge f t d =
      (g.nextEdgeId,
        { nodes :=
            (if (lookupL g.nodes t).isSome then
              modifyL
                (if (lookupL g.nodes f).isSome then
                  modifyL g.nodes f (fun n => n.add_connection g.nextEdgeId)
                 else g.nodes)
                t (fun n => n.add_connection g.nextEdgeId)
             else
              (if (lookupL g.nodes f).isSome then
                modifyL g.nodes f (fun n => n.add_connection g.nextEdgeId)
               else g.nodes)),
          edges := g.edges ++ [(g.nextEdgeId, Edge.new g.nextEdgeId f t d)],
          nextNodeId := g.nextNodeId,
          nextEdgeId := g.nextEdgeId + 1 }) := by
  simp only [Graph.add_edge]
  by_cases hf : (lookupL g.nodes f).isSome <;>
    by_cases ht : (lookupL g.nodes t).isSome <;>
    simp [hf, ht, lookupL_modifyL_isSome]

/-- C8 (confirmed): add_edge never fails, whichever endpoints are
missing — the returned id resolves through `edge` to the stored record
with the given endpoints; a missing endpoint stays absent (so it is
left without a connections list holding the id), an existing endpoint
— on either side — has the id appended to its connections, and every
other node record is untouched. -/
theorem add_edge_missing_endpoint {N E : Type} (g : Graph N E) (f t : NodeID) (d : E)
    (hb : edgeKeysBounded g) :
    Graph.edge (g.add_edge f t d).2 (g.add_edge f t d).1 =
      .ok (Edge.new (g.add_edge f t d).1 f t d) ∧
    (lookupL g.nodes f = none → lookupL (g.add_edge f t d).2.nodes f = none) ∧
    (lookupL g.nodes t = none → lookupL (g.add_edge f t d).2.nodes t = none) ∧
    (∀ nd, lookupL g.nodes f = none → lookupL g.nodes t = some nd →
      lookupL (g.add_edge f t d).2.nodes t =
        some { nd with connections := nd.connections ++ [(g.add_edge f t d).1] }) ∧
    (∀ nd, lookupL g.nodes t = none → lookupL g.nodes f = some nd →
      lookupL (g.add_edge f t d).2.nodes f =
        some { nd with connections := nd.connections ++ [(g.add_edge f t d).1] }) ∧
    (∀ k, k ≠ f → k ≠ t → lookupL (g.add_edge f t d).2.nodes k = lookupL g.nodes k) := by
  rw [add_edge_result]
  have hnone : lookupL g.edges g.nextEdgeId = none :=
    lookupL_eq_none_of_keys_lt hb
  refine ⟨?_, ?_, ?_, ?_, ?_, ?_⟩
  · simp [Graph.edge, lookupL_append_none _ hnone, lookupL]
  · intro hf
    by_cases ht : (lookupL g.nodes t).isSome
    · have htf : ¬ f = t := by
        intro h
        rw [h, (Option.isSome_iff_exists.mp ht).choose_spec] at hf
        cases hf
      simp [hf, ht, lookupL_modifyL, htf]
    · simp [hf, ht]
  · intro ht
    by_cases hf : (lookupL g.nodes f).isSome
    · have htf : ¬ t = f := by
        intro h
        rw [h, (Option.isSome_iff_exists.mp hf).choose_spec] at ht
        cases ht
      simp [hf, ht, lookupL_modifyL, htf]
    · simp [hf, ht]
  · intro nd hf hnd
    simp [hf, hnd, lookupL_modifyL, Node.add_connection]
  · intro nd ht hnd
    simp [hnd, ht, lookupL_modifyL, Node.add_connection]
  · intro k hkf hkt
    by_cases hf : (lookupL g.nodes f).isSome <;>
      by_cases ht : (lookupL g.nodes t).isSome <;>
      simp [hf, ht, lookupL_modifyL, hkf, hkt]

/-- Witness for C8, both one-sided cases at gAB: with `from` = 7 never
added and `to` = 1 live, the edge (id 1) is created and resolvable, 7
stays absent, and node 1 receives the id; with `from` = 0 live and
`to` = 9 never added, node 0 receives the id and 9 stays absent. -/
theorem add_edge_missing_endpoint_witness :
    Graph.edge (gAB.add_edge 7 1 ()).2 (gAB.add_edge 7 1 ()).1 =
      .ok (Edge.new (gAB.add_edge 7 1 ()).1 7 1 ()) ∧
    lookupL (gAB.add_edge 7 1 ()).2.nodes 7 = none ∧
    lookupL (gAB.add_edge 7 1 ()).2.nodes 1 = some ⟨1, 20, [0, 1]⟩ ∧
    lookupL (gAB.add_edge 0 9 ()).2.nodes 0 = some ⟨0, 10, [0, 1]⟩ ∧
    lookupL (gAB.add_edge 0 9 ()).2.nodes 9 = none :=
  ⟨(add_edge_missing_endpoint gAB 7 1 () (by decide)).1,
   (add_edge_missing_endpoint gAB 7 1 () (by decide)).2.1 rfl,
   (add_edge_missing_endpoint gAB 7 1 () (by decide)).2.2.2.1 ⟨1, 20, [0]⟩ rfl rfl,
   (add_edge_missing_endpoint gAB 0 9 () (by decide)).2.2.2.2.1 ⟨0, 10, [0]⟩ rfl rfl,
   (add_edge_missing_endpoint gAB 0 9 () (by decide)).2.2.1 rfl⟩

/-- C10 (confirmed): with both endpoints live, the fresh id is appended
to `from`'s connections and then to `to`'s; a self-loop on a live node
appends the id twice, so the connections list gains [id, id]. -/
theorem add_edge_appends_in_order {N E : Type} (g : Graph N E) (f t : NodeID) (d : E)
    (nf nt : Node N)
    (hfs : lookupL g.nodes f = some nf) (hts : lookupL g.nodes t = some nt) :
    (f ≠ t →
      lookupL (g.add_edge f t d).2.nodes f =
        some { nf with connections := nf.connections ++ [(g.add_edge f t d).1] } ∧
      lookupL (g.add_edge f t d).2.nodes t =
        some { nt with connections := nt.connections ++ [(g.add_edge f t d).1] }) ∧
    (f = t →
      lookupL (g.add_edge f t d).2.nodes t =
        some { nt with connections :=
          nt.connections ++ [(g.add_edge f t d).1, (g.add_edge f t d).1] }) := by
  rw [add_edge_result]
  constructor
  · intro hft
    have htf : ¬ t = f := fun h => hft h.symm
    constructor
    · simp [hfs, hts, lookupL_modifyL, hft, htf, Node.add_connection]
    · simp [hfs, hts, lookupL_modifyL, htf, Node.add_connection]
  · intro hft
    subst hft
    rw [hfs] at hts
    injection hts with hnt
    subst hnt
    simp [hfs, lookupL_modifyL, Node.add_connection, List.append_assoc]

/-- Witness for C10 at gAB with the distinct pair (0, 1): both
connections lists gain the fresh id 1. -/
theorem add_edge_appends_in_order_witness :
    lookupL (gAB.add_edge 0 1 ()).2.nodes 0 = some ⟨0, 10, [0, 1]⟩ ∧
    lookupL (gAB.add_edge 0 1 ()).2.nodes 1 = some ⟨1, 20, [0, 1]⟩ :=
  (add_edge_appends_in_order gAB 0 1 () ⟨0, 10, [0]⟩ ⟨1, 20, [0]⟩ rfl rfl).1
    (by decide)

/-- C9 (code bug): on the input [(10, [0]), (20, [0])] the batch helper
adds nodes 0 and 1 and creates edge 0 (0 → 0, for node 0) and edge 1
(1 → 0, for node 1) — both are in the edge arena — yet the returned
EdgeID list is [1] alone: `added_edges` is overwritten instead of
extended on every loop iteration, so only the last node's edges are
reported. -/
theorem add_nodes_and_edges_drops_earlier_edges :
    (Graph.add_nodes_and_edges (Graph.new : Graph Nat Unit) [(10, [0]), (20, [0])]).1 =
      ([0, 1], [1]) ∧
    Graph.edge
        (Graph.add_nodes_and_edges (Graph.new : Graph Nat Unit) [(10, [0]), (20, [0])]).2 0 =
      .ok (Edge.new 0 0 0 ()) ∧
    Graph.edge
        (Graph.add_nodes_and_edges (Graph.new : Graph Nat Unit) [(10, [0]), (20, [0])]).2 1 =
      .ok (Edge.new 1 1 0 ()) :=
  ⟨rfl, rfl, rfl⟩

end FastGraph
